import Mathlib

/-!
Verification of the graphsidian core: the canonical double-delimiter
relationship parser (regex `<<descriptor>>[[target]]`), the relationship
index (`relationship-index.ts`), and the graph renderer's model-building
step (`graph-renderer.ts`).  Strings are modelled as lists of characters;
the JavaScript regex match is modelled by an explicit backtracking scanner
with the same lazy/greedy priorities as the source pattern; `Map` objects
are modelled as insertion-ordered association lists.
-/

namespace Graphsidian

/-- Strings, modelled as lists of characters. -/
abbrev Str := List Char

/-- Coerce a Lean string literal into the model's string type. -/
def str (s : String) : Str := s.toList

/-- Relationship direction, from `types.ts`. -/
inductive Direction where
  | outgoing
  | incoming
  | undirected
  | bidirectional
deriving DecidableEq, Repr

/-- The `Relationship` record from `types.ts`.  `label` is `null` or text. -/
structure Relationship where
  id : Str
  sourceFile : Str
  targetFile : Str
  direction : Direction
  label : Option Str
  line : Nat
deriving DecidableEq, Repr

/-- JavaScript whitespace (`\s`, `trim`) restricted to the ASCII whitespace
characters. -/
def isWsChar (c : Char) : Bool :=
  c = ' ' || c = '\t' || c = '\n' || c = '\r' || c = '\x0b' || c = '\x0c'

/-- JavaScript `String.prototype.trim`: drop whitespace from both ends. -/
def trimStr (s : Str) : Str :=
  ((s.dropWhile isWsChar).reverse.dropWhile isWsChar).reverse

/-- A character matched by the regex `.` (anything but a line terminator). -/
def isDotChar (c : Char) : Bool :=
  !(c = '\n' || c = '\r' || c.val = 0x2028 || c.val = 0x2029)

/-- ASCII alphanumeric test, the `/[a-zA-Z0-9]/` test in `parseDescriptor`. -/
def isAlnumChar (c : Char) : Bool :=
  ('a' ≤ c && c ≤ 'z') || ('A' ≤ c && c ≤ 'Z') || ('0' ≤ c && c ≤ '9')

/-- `parseDescriptor` from the parser module, acting on the already-trimmed
descriptor text.  The branch structure mirrors the source: the three exact
arrow tokens, the pure-dash rejection (the source guards it by
`/^[-+]+$/ && /^-+$/`, whose conjunction on a nonempty string is
`all (· = '-')`), the three labelled forms, and the alphanumeric undirected
fallback. -/
def descrCore (D : Str) : Option (Direction × Option Str) :=
  if D = [] then none
  else if D = ['-', '+'] then some (Direction.outgoing, none)
  else if D = ['+', '-'] then some (Direction.incoming, none)
  else if D = ['+', '+'] then some (Direction.bidirectional, none)
  else if D.all (fun c => c = '-' || c = '+') && D.all (fun c => c = '-') then
    none
  else if D.head? = some '+' ∧ D.getLast? = some '+' ∧ 2 < D.length then
    let label := trimStr (D.drop 1).dropLast
    if label = [] then none else some (Direction.bidirectional, some label)
  else if D.head? = some '+' ∧ ¬ D.getLast? = some '+' then
    let label := trimStr (D.drop 1)
    if label = [] then none else some (Direction.incoming, some label)
  else if D.getLast? = some '+' ∧ ¬ D.head? = some '+' then
    let label := trimStr D.dropLast
    if label = [] then none else some (Direction.outgoing, some label)
  else if D.any isAlnumChar then some (Direction.undirected, some D)
  else none

/-- `parseDescriptor(descriptor)`: trim, then classify. -/
def parseDescriptor (descriptor : Str) : Option (Direction × Option Str) :=
  descrCore (trimStr descriptor)

example : parseDescriptor (str "-+") = some (Direction.outgoing, none) := by decide
example : parseDescriptor (str "+-") = some (Direction.incoming, none) := by decide
example : parseDescriptor (str "++") = some (Direction.bidirectional, none) := by decide
example : parseDescriptor (str "+owns+") = some (Direction.bidirectional, some (str "owns")) := by
  decide
example : parseDescriptor (str "+owns") = some (Direction.incoming, some (str "owns")) := by
  decide
example : parseDescriptor (str "owns+") = some (Direction.outgoing, some (str "owns")) := by
  decide
example : parseDescriptor (str "depends on") =
    some (Direction.undirected, some (str "depends on")) := by decide
example : parseDescriptor (str "--") = none := by decide
example : parseDescriptor (str "-") = none := by decide
example : parseDescriptor (str "") = none := by decide
example : parseDescriptor (str "+ +") = none := by decide
example : parseDescriptor (str "+-+") = some (Direction.bidirectional, some (str "-")) := by
  decide

/-! ### The regex scan

`RELATIONSHIP_REGEX = /<<([^>]*?)>>\[\[\s*(.*?)\s*\]\]/g`, executed in a
loop.  The backtracking search is modelled explicitly: the first capture
`[^>]*?` can never cross a `>`, so it is exactly the text up to the first
`>`; after `[[`, the leading `\s*` is greedy (longest run first), the
capture `(.*?)` is lazy (shortest first), and the trailing `\s*` is greedy
again. -/

/-- Strip an expected literal character sequence from the head of the
text, returning the remainder on success. -/
def stripLit : Str → Str → Option Str
  | [], s => some s
  | _ :: _, [] => none
  | p :: ps, c :: cs => if c = p then stripLit ps cs else none

/-- Recognise a literal `]]` at the head of the text. -/
def startLL (v : Str) : Option Str := stripLit [']', ']'] v

/-- Length of the leading whitespace run of `v`. -/
def wsRunLen (v : Str) : Nat := (v.takeWhile isWsChar).length

/-- The greedy `\s*\]\]` tail of the pattern: starting from the longest
candidate whitespace run `n` and backtracking downwards, find `]]` at
offset `k ≤ n` and return the text after it. -/
def tryClose (v : Str) : Nat → Option Str
  | 0 => startLL v
  | n + 1 =>
    match startLL (v.drop (n + 1)) with
    | some rest => some rest
    | none => tryClose v n

/-- The lazy capture `(.*?)` followed by the closing `\s*\]\]`: prefer the
shortest capture, and every captured character must be matched by `.`.
Returns the capture and the remainder after the whole match. -/
def tryG (v : Str) : Option (Str × Str) :=
  match tryClose v (wsRunLen v) with
  | some rest => some ([], rest)
  | none =>
    match v with
    | [] => none
    | c :: cs =>
      if isDotChar c then (tryG cs).map (fun p => (c :: p.1, p.2)) else none

/-- The greedy `\s*` directly after `[[`: prefer the longest whitespace
run, backtracking downwards. -/
def tryW1 (u : Str) : Nat → Option (Str × Str)
  | 0 => tryG u
  | n + 1 =>
    match tryG (u.drop (n + 1)) with
    | some r => some r
    | none => tryW1 u n

/-- Match `\s*(.*?)\s*\]\]` at the start of `u` with the engine's
priorities. -/
def matchTail (u : Str) : Option (Str × Str) := tryW1 u (wsRunLen u)

/-- Match the portion of the pattern after the opening `<<`:
`([^>]*?)>>\[\[` and then the target tail.  Returns descriptor capture,
target capture, and the remainder after the full match. -/
def matchBody (rest : Str) : Option (Str × Str × Str) :=
  let g1 := rest.takeWhile (fun c => !(c = '>'))
  match stripLit ['>', '>', '[', '['] (rest.drop g1.length) with
  | some u => (matchTail u).map (fun p => (g1, p.1, p.2))
  | none => none

/-- The global scan of `RELATIONSHIP_REGEX.exec` run in a loop, walking
the text one character at a time.  `skip` counts characters still covered
by the previous match (the distance to `lastIndex`): while it is positive
no new match attempt starts, exactly like the engine resuming at
`lastIndex`.  At `skip = 0` a match attempt starts whenever the text ahead
begins with `<<`; on success the match is recorded with its offset and the
scan skips the rest of the matched text, on failure the scan moves one
character forward. -/
def scanAux : Str → Nat → Nat → List (Nat × Str × Str)
  | [], _, _ => []
  | _ :: cs, pos, skip + 1 => scanAux cs (pos + 1) skip
  | c :: cs, pos, 0 =>
    match stripLit ['<', '<'] (c :: cs) with
    | some rest =>
      match matchBody rest with
      | some (g1, g2, rem) =>
        (pos, g1, g2) :: scanAux cs (pos + 1) (1 + (rest.length - rem.length))
      | none => scanAux cs (pos + 1) 0
    | none => scanAux cs (pos + 1) 0

/-- All matches of the global regex over `s`, with match offsets counted
from `pos`. -/
def scanRels (s : Str) (pos : Nat) : List (Nat × Str × Str) :=
  scanAux s pos 0

/-- `content.split('\n')`. -/
def splitNl : Str → List Str
  | [] => [[]]
  | c :: cs =>
    if c = '\n' then [] :: splitNl cs
    else
      match splitNl cs with
      | l :: ls => (c :: l) :: ls
      | [] => [[c]]

/-- The line-number loop of `parseRelationships`: accumulate
`lines[i].length + 1` until the running count passes the match offset;
when the loop never triggers, the initial value 1 is kept. -/
def lineLoop : List Str → Nat → Nat → Nat → Nat
  | [], _, _, _ => 1
  | l :: ls, cc, i, p =>
    let cc1 := cc + l.length + 1
    if p < cc1 then i + 1 else lineLoop ls cc1 (i + 1) p

/-- Decimal digit character. -/
def digitChar (n : Nat) : Char := Char.ofNat (48 + n)

/-- Division-loop digit extraction, with enough fuel to terminate. -/
def natReprAux : Nat → Nat → Str
  | 0, _ => []
  | fuel + 1, n =>
    if n < 10 then [digitChar n]
    else natReprAux fuel (n / 10) ++ [digitChar (n % 10)]

/-- Decimal representation of a natural number (JavaScript template-literal
interpolation of a non-negative integer). -/
def natRepr (n : Nat) : Str := natReprAux (n + 1) n

/-- `generateId`: the template literal `${sourceFile}:${line}:${index}`. -/
def genId (sourceFile : Str) (line index : Nat) : Str :=
  sourceFile ++ ':' :: (natRepr line ++ ':' :: natRepr index)

/-- One iteration of the match loop in `parseRelationships`: the
relationship the match record produces at the current `matchIndex`, if
any.  An empty trimmed target or an unclassifiable descriptor produces
nothing. -/
def emitOne (sourceFile : Str) (lines : List Str) (idx : Nat)
    (m : Nat × Str × Str) : Option Relationship :=
  let ln := lineLoop lines 0 0 m.1
  let target := trimStr m.2.2
  if target = [] then none
  else
    match parseDescriptor m.2.1 with
    | none => none
    | some (dir, label) =>
      some { id := genId sourceFile ln idx, sourceFile := sourceFile,
             targetFile := target, direction := dir, label := label, line := ln }

/-- The match loop of `parseRelationships`: `matchIndex` advances on every
match, whether or not it is emitted. -/
def parseLoop (sourceFile : Str) (lines : List Str) :
    List (Nat × Str × Str) → Nat → List Relationship
  | [], _ => []
  | m :: ms, idx =>
    match emitOne sourceFile lines idx m with
    | none => parseLoop sourceFile lines ms (idx + 1)
    | some r => r :: parseLoop sourceFile lines ms (idx + 1)

/-- `parseRelationships(content, sourceFile)` from the parser module. -/
def parseRelationships (content : Str) (sourceFile : Str) : List Relationship :=
  parseLoop sourceFile (splitNl content) (scanRels content 0) 0

example : parseRelationships (str "<<-+>>[[Target]]") (str "A") =
    [{ id := str "A:1:0", sourceFile := str "A", targetFile := str "Target",
       direction := Direction.outgoing, label := none, line := 1 }] := by decide

example : parseRelationships (str "<<-+>>[[  Target  ]]") (str "A") =
    [{ id := str "A:1:0", sourceFile := str "A", targetFile := str "Target",
       direction := Direction.outgoing, label := none, line := 1 }] := by decide

example : (parseRelationships (str "<<-+>>[[ ]] <<-->>[[C]] <<ok>>[[D]]") (str "A")).map
    (fun r => r.id) = [str "A:1:2"] := by decide

example : (parseRelationships (str "line1\n<<+dep->>[[B]]\n<<x+>>[[C]]") (str "A")).map
    (fun r => (r.line, r.id)) = [(2, str "A:2:0"), (3, str "A:3:1")] := by decide

example : parseRelationships (str "<<d>> [[T]]") (str "A") = [] := by decide

/-! ### The relationship index

`relationship-index.ts`.  The JavaScript `Map` keyed by source identifier
is modelled as an insertion-ordered association list: `set` overwrites in
place or appends, `delete` removes the keyed entry, iteration follows the
list order. -/

/-- The index store: source identifier to its owned relationships. -/
abbrev IndexState := List (Str × List Relationship)

/-- `Map.get`. -/
def mapGet : IndexState → Str → Option (List Relationship)
  | [], _ => none
  | e :: es, k => if e.1 = k then some e.2 else mapGet es k

/-- `Map.set`: overwrite the entry in place, or append a new one. -/
def mapSet : IndexState → Str → List Relationship → IndexState
  | [], k, v => [(k, v)]
  | e :: es, k, v => if e.1 = k then (k, v) :: es else e :: mapSet es k v

/-- `Map.delete`. -/
def mapDelete : IndexState → Str → IndexState
  | [], _ => []
  | e :: es, k => if e.1 = k then mapDelete es k else e :: mapDelete es k

/-- `stripExtension`: remove a trailing `.md` if present
(`filename.replace(/\.md$/, '')`). -/
def stripExtension (filename : Str) : Str :=
  if ['.', 'm', 'd'].isSuffixOf filename then
    filename.take (filename.length - 3)
  else filename

/-- `reindexFile(filename, content)`. -/
def reindexFile (m : IndexState) (filename content : Str) : IndexState :=
  let sourceKey := stripExtension filename
  mapSet m sourceKey (parseRelationships content sourceKey)

/-- `removeFile(filename)`. -/
def removeFile (m : IndexState) (filename : Str) : IndexState :=
  mapDelete m (stripExtension filename)

/-- JavaScript `String.prototype.replace` with a plain-string pattern:
replace the first occurrence of `pat` (scanning left to right) by `rep`;
if there is none, return the string unchanged. -/
def replaceFirst : Str → Str → Str → Str
  | [], pat, rep => if pat.isPrefixOf [] then rep else []
  | c :: cs, pat, rep =>
    if pat.isPrefixOf (c :: cs) then rep ++ (c :: cs).drop pat.length
    else c :: replaceFirst cs pat rep

/-- `renameFile(oldName, newName)`: move the entry keyed by the old
identifier to the new one, rewriting each moved relationship's
`sourceFile` and `id`; then rewrite `targetFile` across all entries. -/
def renameFile (m : IndexState) (oldName newName : Str) : IndexState :=
  let oldKey := stripExtension oldName
  let newKey := stripExtension newName
  let m1 :=
    match mapGet m oldKey with
    | some rels =>
      mapSet (mapDelete m oldKey) newKey
        (rels.map (fun (r : Relationship) =>
          { r with sourceFile := newKey, id := replaceFirst r.id oldKey newKey }))
    | none => m
  m1.map (fun (e : Str × List Relationship) =>
    (e.1, e.2.map (fun (r : Relationship) =>
      if r.targetFile = oldKey then { r with targetFile := newKey } else r)))

/-- `getAllRelationships`: concatenate all entries in map order. -/
def getAllRelationships : IndexState → List Relationship
  | [] => []
  | e :: es => e.2 ++ getAllRelationships es

/-! ### The graph renderer's model-building step

`GraphRenderer.update` from `graph-renderer.ts`: label filtering, the node
set with position/velocity carry-over, and the link list with parallel-edge
curve offsets.  `Math.random()` is modelled as a supplied stream of
rationals, consumed two per newly seeded node. -/

/-- A d3 simulation node as the renderer builds it. -/
structure GraphNode where
  id : Str
  isGhost : Bool
  x : ℚ
  y : ℚ
  vx : Option ℚ
  vy : Option ℚ
deriving DecidableEq, Repr

/-- A rendered link record. -/
structure GraphLink where
  source : Str
  target : Str
  relationship : Relationship
  curveOffset : Nat
deriving DecidableEq, Repr

/-- `String.prototype.toLowerCase`, per character. -/
def lowerStr (s : Str) : Str := s.map Char.toLower

/-- `String.prototype.includes`: substring containment. -/
def containsSub : Str → Str → Bool
  | [], needle => needle.isEmpty
  | c :: t, needle => needle.isPrefixOf (c :: t) || containsSub t needle

/-- The label filter at the top of `update`: with a non-blank filter,
keep only relationships whose (truthy) label contains the lowercased
trimmed filter as a substring, case-insensitively. -/
def labelFiltered (labelFilter : Str) (rels : List Relationship) :
    List Relationship :=
  if trimStr labelFilter = [] then rels
  else
    let filter := lowerStr (trimStr labelFilter)
    rels.filter (fun r =>
      match r.label with
      | none => false
      | some l => !l.isEmpty && containsSub (lowerStr l) filter)

/-- `Set.add` on an insertion-ordered set of identifiers. -/
def addNode (acc : List Str) (i : Str) : List Str :=
  if i ∈ acc then acc else acc ++ [i]

/-- The node-name set built in `update`: the supplied names, then the
source and target of every retained relationship, in order. -/
def buildNodeNames (nodeNames : List Str) (filtered : List Relationship) :
    List Str :=
  filtered.foldl (fun acc r => addNode (addNode acc r.sourceFile) r.targetFile)
    (nodeNames.foldl addNode [])

/-- First node with the given id. -/
def findNode : List GraphNode → Str → Option GraphNode
  | [], _ => none
  | n :: ns, i => if n.id = i then some n else findNode ns i

/-- `oldNodeMap.get(id)`: the map is built by iterating the previous node
array with `set`, so the last node with a given id wins. -/
def lookupNode (prev : List GraphNode) (i : Str) : Option GraphNode :=
  findNode prev.reverse i

/-- The node-building map in `update`: a node that already existed keeps
its position and velocity; a new node is seeded near the viewport center
using two draws from the random stream. -/
def mkNodes (prev : List GraphNode) (existingFiles : List Str) (w h : ℚ)
    (rand : Nat → ℚ) : List Str → Nat → List GraphNode
  | [], _ => []
  | i :: is, k =>
    match lookupNode prev i with
    | some p =>
      { id := i, isGhost := !(existingFiles.contains i), x := p.x, y := p.y,
        vx := p.vx, vy := p.vy } :: mkNodes prev existingFiles w h rand is k
    | none =>
      { id := i, isGhost := !(existingFiles.contains i),
        x := w / 2 + (rand k - 1 / 2) * 100,
        y := h / 2 + (rand (k + 1) - 1 / 2) * 100,
        vx := none, vy := none } :: mkNodes prev existingFiles w h rand is (k + 2)

/-- Lexicographic comparison of strings by character code, the order the
default `Array.prototype.sort` comparator induces. -/
def strLt : Str → Str → Bool
  | [], [] => false
  | [], _ :: _ => true
  | _ :: _, [] => false
  | a :: as, b :: bs =>
    if a.val < b.val then true
    else if b.val < a.val then false
    else strLt as bs

/-- The parallel-edge bundling key:
`[r.sourceFile, r.targetFile].sort().join('--')`. -/
def pairKey (r : Relationship) : Str :=
  if strLt r.targetFile r.sourceFile then
    r.targetFile ++ '-' :: '-' :: r.sourceFile
  else
    r.sourceFile ++ '-' :: '-' :: r.targetFile

/-- `edgeCounts.get(key) || 0`. -/
def cntGet : List (Str × Nat) → Str → Nat
  | [], _ => 0
  | e :: es, k => if e.1 = k then e.2 else cntGet es k

/-- `edgeCounts.set(key, n)`. -/
def cntSet : List (Str × Nat) → Str → Nat → List (Str × Nat)
  | [], k, v => [(k, v)]
  | e :: es, k, v => if e.1 = k then (k, v) :: es else e :: cntSet es k v

/-- The link-building map in `update`, carrying the per-key running
counter: `curveOffset = count * 30`. -/
def buildLinksGo : List Relationship → List (Str × Nat) → List GraphLink
  | [], _ => []
  | r :: rs, m =>
    let key := pairKey r
    let c := cntGet m key
    { source := r.sourceFile, target := r.targetFile, relationship := r,
      curveOffset := c * 30 } :: buildLinksGo rs (cntSet m key (c + 1))

/-- The link list built by `update` from the retained relationships. -/
def buildLinks (filtered : List Relationship) : List GraphLink :=
  buildLinksGo filtered []

/-- `GraphRenderer.update(nodeNames, relationships)`: the graph model it
rebuilds (the subsequent `render` call only draws it). -/
def rendererUpdate (labelFilter : Str) (existingFiles : List Str)
    (prevNodes : List GraphNode) (w h : ℚ) (rand : Nat → ℚ)
    (nodeNames : List Str) (relationships : List Relationship) :
    List GraphNode × List GraphLink :=
  let filtered := labelFiltered labelFilter relationships
  let ids := buildNodeNames nodeNames filtered
  (mkNodes prevNodes existingFiles w h rand ids 0, buildLinks filtered)

/-! ### Association-list map lemmas -/

theorem mapGet_mapSet_self (m : IndexState) (k : Str) (v : List Relationship) :
    mapGet (mapSet m k v) k = some v := by
  induction m with
  | nil => simp [mapSet, mapGet]
  | cons e es ih =>
    by_cases h : e.1 = k
    · simp [mapSet, mapGet, h]
    · simp [mapSet, mapGet, h, ih]

theorem mapGet_mapSet_ne (m : IndexState) {k j : Str} (v : List Relationship)
    (h : ¬ j = k) : mapGet (mapSet m k v) j = mapGet m j := by
  induction m with
  | nil =>
    simp only [mapSet, mapGet]
    rw [if_neg (fun hc => h hc.symm)]
  | cons e es ih =>
    by_cases h1 : e.1 = k
    · simp only [mapSet, if_pos h1, mapGet]
      have h3 : ¬ e.1 = j := by rw [h1]; exact fun hc => h hc.symm
      rw [if_neg (fun hc => h hc.symm), if_neg h3]
    · simp only [mapSet, if_neg h1, mapGet]
      by_cases h2 : e.1 = j
      · rw [if_pos h2, if_pos h2]
      · rw [if_neg h2, if_neg h2, ih]

theorem mapSet_mapSet_self (m : IndexState) (k : Str) (v : List Relationship) :
    mapSet (mapSet m k v) k v = mapSet m k v := by
  induction m with
  | nil => simp [mapSet]
  | cons e es ih =>
    by_cases h : e.1 = k
    · simp [mapSet, h]
    · simp [mapSet, h, ih]

theorem mapGet_mapDelete (m : IndexState) (j k : Str) :
    mapGet (mapDelete m j) k = if k = j then none else mapGet m k := by
  induction m with
  | nil => simp [mapDelete, mapGet]
  | cons e es ih =>
    by_cases h1 : e.1 = j
    · simp only [mapDelete, if_pos h1, ih]
      by_cases h2 : k = j
      · rw [if_pos h2, if_pos h2]
      · rw [if_neg h2, if_neg h2]
        simp only [mapGet]
        have h3 : ¬ e.1 = k := by rw [h1]; exact fun hc => h2 hc.symm
        rw [if_neg h3]
    · simp only [mapDelete, if_neg h1, mapGet]
      by_cases h2 : e.1 = k
      · rw [if_pos h2, if_neg (fun hc => h1 (h2.trans hc)), if_pos h2]
      · rw [if_neg h2, ih]
        by_cases h3 : k = j
        · rw [if_pos h3, if_pos h3]
        · rw [if_neg h3, if_neg h3, if_neg h2]

/-! ### Claims about the index: reindex and remove -/

/-- C6: `reindex(sourceId, text)` replaces the entry for that source
wholesale with exactly the parse of the supplied text (independent of any
previous entry), and a second identical call leaves the stored state
unchanged (idempotence). -/
theorem c6_reindex_wholesale_and_idempotent (m : IndexState)
    (filename content : Str) :
    mapGet (reindexFile m filename content) (stripExtension filename) =
      some (parseRelationships content (stripExtension filename)) ∧
    reindexFile (reindexFile m filename content) filename content =
      reindexFile m filename content := by
  constructor
  · simp only [reindexFile]
    exact mapGet_mapSet_self m _ _
  · simp only [reindexFile]
    exact mapSet_mapSet_self m _ _

/-- C7: `remove(sourceId)` deletes exactly the entry keyed by that
identifier; the entry under every other key — including entries holding
relationships whose `targetFile` is the removed identifier — is returned
unchanged. -/
theorem c7_remove_frame (m : IndexState) (filename k : Str) :
    mapGet (removeFile m filename) k =
      if k = stripExtension filename then none else mapGet m k := by
  simp only [removeFile]
  exact mapGet_mapDelete m _ k

/-! ### Claim about the index: rename -/

/-- The rewrite `renameFile` applies to a relationship in the moved entry:
`sourceFile` and `id` from phase one, `targetFile` from phase two. -/
def renameMoved (oldKey newKey : Str) (r : Relationship) : Relationship :=
  { r with
    sourceFile := newKey
    id := replaceFirst r.id oldKey newKey
    targetFile := if r.targetFile = oldKey then newKey else r.targetFile }

/-- The rewrite `renameFile` applies to relationships of every other
entry: only `targetFile` changes, and only when it named the old key. -/
def retargetOnly (oldKey newKey : Str) (r : Relationship) : Relationship :=
  if r.targetFile = oldKey then { r with targetFile := newKey } else r

theorem isPrefixOf_append_self : ∀ pat xs : Str, pat.isPrefixOf (pat ++ xs) = true := by
  intro pat
  induction pat with
  | nil => intro xs; simp [List.isPrefixOf]
  | cons c cs ih => intro xs; simp [List.isPrefixOf, ih]

theorem replaceFirst_prefix (pat rep xs : Str) :
    replaceFirst (pat ++ xs) pat rep = rep ++ xs := by
  cases hpx : pat ++ xs with
  | nil =>
    rcases List.append_eq_nil.mp hpx with ⟨h1, h2⟩
    subst h1; subst h2
    simp [replaceFirst, List.isPrefixOf]
  | cons c cs =>
    show (if pat.isPrefixOf (c :: cs) then rep ++ (c :: cs).drop pat.length
      else c :: replaceFirst cs pat rep) = rep ++ xs
    rw [← hpx, isPrefixOf_append_self]
    simp

theorem replaceFirst_genId (oldKey newKey : Str) (line idx : Nat) :
    replaceFirst (genId oldKey line idx) oldKey newKey = genId newKey line idx :=
  replaceFirst_prefix oldKey newKey _

theorem retargetOnly_renameMoved (oldKey newKey : Str) (r : Relationship) :
    retargetOnly oldKey newKey
      { r with
        sourceFile := newKey
        id := replaceFirst r.id oldKey newKey } =
      renameMoved oldKey newKey r := by
  by_cases h : r.targetFile = oldKey <;>
    simp [retargetOnly, renameMoved, h]

theorem mapGet_valueMap (m : IndexState) (f : Relationship → Relationship)
    (k : Str) :
    mapGet (m.map (fun (e : Str × List Relationship) => (e.1, e.2.map f))) k =
      (mapGet m k).map (List.map f) := by
  induction m with
  | nil => simp [mapGet]
  | cons e es ih =>
    by_cases h : e.1 = k
    · simp [mapGet, h]
    · simp [mapGet, h, ih]

theorem getAll_valueMap (m : IndexState) (f : Relationship → Relationship) :
    getAllRelationships
        (m.map (fun (e : Str × List Relationship) => (e.1, e.2.map f))) =
      (getAllRelationships m).map f := by
  induction m with
  | nil => simp [getAllRelationships]
  | cons e es ih => simp [getAllRelationships, ih]

theorem getAll_append (a b : IndexState) :
    getAllRelationships (a ++ b) = getAllRelationships a ++ getAllRelationships b := by
  induction a with
  | nil => simp [getAllRelationships]
  | cons e es ih => simp [getAllRelationships, ih]

theorem mapSet_of_get_none (m : IndexState) (k : Str) (v : List Relationship)
    (h : mapGet m k = none) : mapSet m k v = m ++ [(k, v)] := by
  induction m with
  | nil => simp [mapSet]
  | cons e es ih =>
    simp only [mapGet] at h
    split at h
    · simp at h
    · rename_i h1
      simp only [mapSet, if_neg h1, List.cons_append, List.cons.injEq, true_and]
      exact ih h

theorem mapDelete_of_get_none (m : IndexState) (k : Str)
    (h : mapGet m k = none) : mapDelete m k = m := by
  induction m with
  | nil => simp [mapDelete]
  | cons e es ih =>
    simp only [mapGet] at h
    split at h
    · simp at h
    · rename_i h1
      simp only [mapDelete, if_neg h1, List.cons.injEq, true_and]
      exact ih h

theorem mapGet_of_not_mem_keys (m : IndexState) (k : Str)
    (h : ¬ k ∈ m.map Prod.fst) : mapGet m k = none := by
  induction m with
  | nil => simp [mapGet]
  | cons e es ih =>
    simp only [List.map_cons, List.mem_cons, not_or] at h
    have h3 : ¬ e.1 = k := fun hc => h.1 hc.symm
    simp only [mapGet, if_neg h3]
    exact ih h.2

theorem getAll_mapDelete_length (m : IndexState) (k : Str)
    (rels : List Relationship) (hnd : (m.map Prod.fst).Nodup)
    (h : mapGet m k = some rels) :
    (getAllRelationships m).length =
      (getAllRelationships (mapDelete m k)).length + rels.length := by
  induction m with
  | nil => simp [mapGet] at h
  | cons e es ih =>
    simp only [List.map_cons, List.nodup_cons] at hnd
    simp only [mapGet] at h
    by_cases h1 : e.1 = k
    · rw [if_pos h1] at h
      cases h
      have hk : mapGet es k = none :=
        mapGet_of_not_mem_keys es k (by rw [← h1]; exact hnd.1)
      simp only [mapDelete, if_pos h1, mapDelete_of_get_none es k hk,
        getAllRelationships]
      simp [Nat.add_comm]
    · rw [if_neg h1] at h
      simp only [mapDelete, if_neg h1, getAllRelationships]
      simp only [List.length_append]
      rw [ih hnd.2 h]
      omega

/-- C1, amended: provided the index has no entry keyed by the new
identifier, `rename(oldName, newName)` moves the entry keyed by the old
identifier to the new one, rewriting each of its relationships'
`sourceFile` and `id` (and, for self references, `targetFile`); in every
other entry exactly the relationships whose `targetFile` was the old
identifier have it rewritten, ids untouched; the total number of stored
relationships is preserved; and on a canonically generated id the `id`
rewrite is precisely recomputation with the new identifier. -/
theorem c1_rename_amended (m : IndexState) (oldName newName : Str)
    (rels : List Relationship)
    (hnd : (m.map Prod.fst).Nodup)
    (hOld : mapGet m (stripExtension oldName) = some rels)
    (hNew : mapGet m (stripExtension newName) = none) :
    mapGet (renameFile m oldName newName) (stripExtension newName) =
      some (rels.map
        (renameMoved (stripExtension oldName) (stripExtension newName))) ∧
    mapGet (renameFile m oldName newName) (stripExtension oldName) = none ∧
    (∀ k, ¬ k = stripExtension oldName → ¬ k = stripExtension newName →
      mapGet (renameFile m oldName newName) k =
        (mapGet m k).map (List.map
          (retargetOnly (stripExtension oldName) (stripExtension newName)))) ∧
    (getAllRelationships (renameFile m oldName newName)).length =
      (getAllRelationships m).length ∧
    (∀ line idx,
      replaceFirst (genId (stripExtension oldName) line idx)
          (stripExtension oldName) (stripExtension newName) =
        genId (stripExtension newName) line idx) := by
  have hne : ¬ stripExtension oldName = stripExtension newName := by
    intro hc
    rw [hc, hNew] at hOld
    exact absurd hOld (by simp)
  have hexp : renameFile m oldName newName =
      (mapSet (mapDelete m (stripExtension oldName)) (stripExtension newName)
        (rels.map (fun (r : Relationship) =>
          { r with
            sourceFile := stripExtension newName
            id := replaceFirst r.id (stripExtension oldName)
              (stripExtension newName) }))).map
        (fun (e : Str × List Relationship) =>
          (e.1, e.2.map (fun (r : Relationship) =>
            if r.targetFile = stripExtension oldName then
              { r with targetFile := stripExtension newName } else r))) := by
    simp only [renameFile, hOld]
  have hretexp : ∀ r : Relationship,
      (if r.targetFile = stripExtension oldName then
        { r with targetFile := stripExtension newName } else r) =
      retargetOnly (stripExtension oldName) (stripExtension newName) r := by
    intro r; simp [retargetOnly]
  refine ⟨?_, ?_, ?_, ?_, ?_⟩
  · rw [hexp, mapGet_valueMap, mapGet_mapSet_self]
    simp only [Option.map_some', List.map_map, Option.some.injEq]
    apply List.map_congr_left
    intro r _
    show (if _ then _ else _) = _
    rw [hretexp]
    exact retargetOnly_renameMoved _ _ r
  · rw [hexp, mapGet_valueMap, mapGet_mapSet_ne _ _ hne, mapGet_mapDelete,
      if_pos rfl]
    simp
  · intro k hk1 hk2
    rw [hexp, mapGet_valueMap, mapGet_mapSet_ne _ _ hk2, mapGet_mapDelete,
      if_neg hk1]
    cases mapGet m k with
    | none => simp
    | some l =>
      simp only [Option.map_some', Option.some.injEq]
      apply List.map_congr_left
      intro r _
      exact hretexp r
  · have hdelnew : mapGet (mapDelete m (stripExtension oldName))
        (stripExtension newName) = none := by
      rw [mapGet_mapDelete, hNew]
      split <;> rfl
    rw [hexp, getAll_valueMap, List.length_map,
      mapSet_of_get_none _ _ _ hdelnew, getAll_append]
    have hlen := getAll_mapDelete_length m (stripExtension oldName) rels hnd hOld
    simp only [getAllRelationships, List.length_append, List.length_map]
    simp [getAllRelationships] at hlen ⊢
    omega
  · intro line idx
    exact replaceFirst_genId _ _ line idx

/-- A concrete relationship owned by document A, targeting X. -/
def relAX : Relationship :=
  ⟨str "A:1:0", str "A", str "X", Direction.outgoing, none, 1⟩

/-- A concrete relationship owned by document B, targeting A. -/
def relBA : Relationship :=
  ⟨str "B:1:0", str "B", str "A", Direction.outgoing, none, 1⟩

/-- C1 counterexample: with an index holding entries for both the old and
the new identifier, renaming loses the relationships of the clobbered
entry, contradicting the unrestricted claim that no relationship is ever
lost by a rename. -/
theorem c1_rename_counterexample :
    (getAllRelationships [(str "A", [relAX]), (str "B", [relBA])]).length = 2 ∧
    (getAllRelationships (renameFile [(str "A", [relAX]), (str "B", [relBA])]
      (str "A") (str "B"))).length = 1 := by decide

/-! ### Whitespace, trim and scan helper lemmas -/

theorem head?_dropWhile_false (p : Char → Bool) (l : Str) {c : Char}
    (h : (l.dropWhile p).head? = some c) : p c = false := by
  have h2 := List.head?_dropWhile_not p l
  rw [h] at h2
  exact h2

theorem dropWhile_eq_self_of_head (p : Char → Bool) (l : Str)
    (h : ∀ c, l.head? = some c → p c = false) : l.dropWhile p = l := by
  cases l with
  | nil => rfl
  | cons c cs => simp [List.dropWhile_cons, h c rfl]

theorem takeWhile_eq_nil_head (p : Char → Bool) (r : Str)
    (h : ∀ c, r.head? = some c → p c = false) : r.takeWhile p = [] := by
  cases r with
  | nil => rfl
  | cons c cs => simp [List.takeWhile_cons, h c rfl]

theorem wsRunLen_append (w r : Str) (hw : ∀ c ∈ w, isWsChar c)
    (hr : ∀ c, r.head? = some c → isWsChar c = false) :
    wsRunLen (w ++ r) = w.length := by
  rw [wsRunLen, List.takeWhile_append_of_pos hw, takeWhile_eq_nil_head _ _ hr]
  simp

theorem wsRunLen_lt (m r : Str) (h : ∃ c ∈ m, isWsChar c = false) :
    wsRunLen (m ++ r) < m.length := by
  induction m with
  | nil => simp at h
  | cons c cs ih =>
    by_cases hc : isWsChar c = true
    · have h2 : ∃ x ∈ cs, isWsChar x = false := by
        rcases h with ⟨x, hx, hxf⟩
        rcases List.mem_cons.mp hx with h3 | h3
        · rw [h3, hc] at hxf; simp at hxf
        · exact ⟨x, h3, hxf⟩
      simp only [wsRunLen, List.cons_append, List.takeWhile_cons, hc, if_true,
        List.length_cons]
      have := ih h2
      rw [wsRunLen] at this
      omega
    · have hc2 : isWsChar c = false := by
        cases h3 : isWsChar c
        · rfl
        · exact absurd h3 hc
      simp [wsRunLen, List.cons_append, List.takeWhile_cons, hc2]

theorem stripLit_self_append (pat xs : Str) :
    stripLit pat (pat ++ xs) = some xs := by
  induction pat with
  | nil => rfl
  | cons p ps ih => simp [stripLit, ih]

theorem startLL_none (u : Str) (h : ∀ c, u.head? = some c → ¬ c = ']') :
    startLL u = none := by
  cases u with
  | nil => rfl
  | cons c cs => simp only [startLL, stripLit, if_neg (h c rfl)]

theorem rev_decomp (p : Char → Bool) (s : Str) :
    s = (s.reverse.dropWhile p).reverse ++ (s.reverse.takeWhile p).reverse := by
  conv_rhs =>
    rw [← List.reverse_append, List.takeWhile_append_dropWhile,
      List.reverse_reverse]

theorem trimStr_head_false (s : Str) {c : Char}
    (h : (trimStr s).head? = some c) : isWsChar c = false := by
  rw [trimStr, List.head?_reverse] at h
  have hX : ((s.dropWhile isWsChar).reverse.dropWhile isWsChar) ≠ [] := by
    intro h0; rw [h0] at h; exact absurd h (by simp)
  have hdec := (List.takeWhile_append_dropWhile
    (p := isWsChar) (l := (s.dropWhile isWsChar).reverse)).symm
  have h2 : (s.dropWhile isWsChar).reverse.getLast? =
      ((s.dropWhile isWsChar).reverse.dropWhile isWsChar).getLast? := by
    conv_lhs => rw [hdec]
    exact List.getLast?_append_of_ne_nil _ hX
  rw [← h2, List.getLast?_reverse] at h
  exact head?_dropWhile_false _ _ h

theorem trimStr_getLast_false (s : Str) {c : Char}
    (h : (trimStr s).getLast? = some c) : isWsChar c = false := by
  rw [trimStr, List.getLast?_reverse] at h
  exact head?_dropWhile_false _ _ h

theorem trimStr_idem (s : Str) : trimStr (trimStr s) = trimStr s := by
  have h1 : (trimStr s).dropWhile isWsChar = trimStr s :=
    dropWhile_eq_self_of_head _ _ (fun c hc => trimStr_head_false s hc)
  have h2 : (trimStr s).reverse.dropWhile isWsChar = (trimStr s).reverse := by
    apply dropWhile_eq_self_of_head
    intro c hc
    rw [List.head?_reverse] at hc
    exact trimStr_getLast_false s hc
  conv_lhs => rw [trimStr, h1, h2, List.reverse_reverse]

theorem trimStr_of_no_ws (s : Str) (h : ∀ c ∈ s, isWsChar c = false) :
    trimStr s = s := by
  have h1 : s.dropWhile isWsChar = s :=
    dropWhile_eq_self_of_head _ _ (fun c hc => h c (List.mem_of_mem_head? hc))
  have h2 : s.reverse.dropWhile isWsChar = s.reverse := by
    apply dropWhile_eq_self_of_head
    intro c hc
    rw [List.head?_reverse] at hc
    exact h c (List.mem_of_mem_getLast? hc)
  rw [trimStr, h1, h2, List.reverse_reverse]

theorem tryClose_hit (w rest : Str) :
    tryClose (w ++ ']' :: ']' :: rest) w.length = some rest := by
  cases hn : w.length with
  | zero =>
    rw [List.length_eq_zero.mp hn]
    simp [tryClose, startLL, stripLit]
  | succ m =>
    simp only [tryClose]
    rw [← hn, List.drop_left]
    simp [startLL, stripLit]

theorem tryClose_miss (v : Str) : ∀ n : Nat,
    (∀ k, k ≤ n → startLL (v.drop k) = none) → tryClose v n = none := by
  intro n
  induction n with
  | zero =>
    intro h
    have h0 := h 0 (Nat.le_refl 0)
    simp only [List.drop_zero] at h0
    simp [tryClose, h0]
  | succ m ih =>
    intro h
    simp only [tryClose]
    rw [h (m + 1) (Nat.le_refl _)]
    exact ih (fun k hk => h k (Nat.le_succ_of_le hk))

theorem close_blocked (m rest : Str) (hnb : ∀ c ∈ m, ¬ c = ']')
    (hnw : ∃ c ∈ m, isWsChar c = false) :
    tryClose (m ++ ']' :: ']' :: rest)
      (wsRunLen (m ++ ']' :: ']' :: rest)) = none := by
  apply tryClose_miss
  intro k hk
  have hlt : wsRunLen (m ++ ']' :: ']' :: rest) < m.length := wsRunLen_lt m _ hnw
  have hk2 : k < m.length := lt_of_le_of_lt hk hlt
  rw [List.drop_append_of_le_length (le_of_lt hk2)]
  apply startLL_none
  intro c hc
  have hne : m.drop k ≠ [] := by
    intro h0
    have := List.drop_eq_nil_iff.mp h0
    omega
  obtain ⟨c0, cs0, hcons⟩ := List.exists_cons_of_ne_nil hne
  rw [hcons] at hc
  simp only [List.cons_append, List.head?_cons, Option.some.injEq] at hc
  rw [← hc]
  exact hnb c0 (List.mem_of_mem_drop (hcons ▸ List.mem_cons_self c0 cs0))

theorem ws_ne_rb {x : Char} (h : isWsChar x = true) : ¬ x = ']' := by
  intro hx
  rw [hx] at h
  exact absurd h (by decide)

theorem tryG_unfold (v : Str) :
    tryG v = match tryClose v (wsRunLen v) with
      | some rest => some ([], rest)
      | none =>
        match v with
        | [] => none
        | c :: cs =>
          if isDotChar c then (tryG cs).map (fun p => (c :: p.1, p.2)) else none := by
  cases v with
  | nil => rw [tryG]
  | cons c cs => rw [tryG]

theorem tryG_exact (g w2 rest : Str)
    (hgb : ∀ c ∈ g, ¬ c = ']') (hgd : ∀ c ∈ g, isDotChar c = true)
    (hlast : ∀ c, g.getLast? = some c → isWsChar c = false)
    (hw2 : ∀ c ∈ w2, isWsChar c) :
    tryG (g ++ w2 ++ ']' :: ']' :: rest) = some (g, rest) := by
  induction g with
  | nil =>
    rw [tryG_unfold]
    simp only [List.nil_append]
    have hrun : wsRunLen (w2 ++ ']' :: ']' :: rest) = w2.length :=
      wsRunLen_append w2 _ hw2
        (by intro c hc; simp only [List.head?_cons, Option.some.injEq] at hc;
            rw [← hc]; decide)
    rw [hrun, tryClose_hit w2 rest]
  | cons c g1 ih =>
    obtain ⟨lc, hlc⟩ : ∃ lc, (c :: g1).getLast? = some lc := by
      cases hgl : (c :: g1).getLast? with
      | none => exact absurd hgl (by simp)
      | some lc => exact ⟨lc, rfl⟩
    have hblock : tryClose ((c :: (g1 ++ w2)) ++ ']' :: ']' :: rest)
        (wsRunLen ((c :: (g1 ++ w2)) ++ ']' :: ']' :: rest)) = none := by
      apply close_blocked
      · intro x hx
        rcases List.mem_cons.mp hx with h3 | h3
        · rw [h3]; exact hgb c (List.mem_cons_self c g1)
        · rcases List.mem_append.mp h3 with h4 | h4
          · exact hgb x (List.mem_cons_of_mem c h4)
          · exact ws_ne_rb (hw2 x h4)
      · refine ⟨lc, ?_, hlast lc hlc⟩
        rcases List.mem_cons.mp (List.mem_of_mem_getLast? hlc) with h3 | h3
        · rw [h3]; exact List.mem_cons_self c (g1 ++ w2)
        · exact List.mem_cons_of_mem c (List.mem_append.mpr (Or.inl h3))
    have hblock2 : tryClose (c :: (g1 ++ (w2 ++ (']' :: ']' :: rest))))
        (wsRunLen (c :: (g1 ++ (w2 ++ (']' :: ']' :: rest))))) = none := by
      simpa [List.cons_append, List.append_assoc] using hblock
    have ih2 : tryG (g1 ++ w2 ++ ']' :: ']' :: rest) = some (g1, rest) := by
      apply ih
      · exact fun x hx => hgb x (List.mem_cons_of_mem c hx)
      · exact fun x hx => hgd x (List.mem_cons_of_mem c hx)
      · intro x hx
        apply hlast
        cases g1 with
        | nil => exact absurd hx (by simp)
        | cons d ds => rw [List.getLast?_cons_cons]; exact hx
    have ih3 : tryG (g1 ++ (w2 ++ (']' :: ']' :: rest))) = some (g1, rest) := by
      rw [← List.append_assoc]
      exact ih2
    simp only [List.cons_append, List.append_assoc]
    rw [tryG_unfold, hblock2]
    simp [hgd c (List.mem_cons_self c g1), ih3]

theorem tryW1_unfold (u : Str) (n : Nat) :
    tryW1 u n = match n with
      | 0 => tryG u
      | m + 1 =>
        match tryG (u.drop (m + 1)) with
        | some r => some r
        | none => tryW1 u m := by
  cases n with
  | zero => rfl
  | succ m => rfl

/-- The decomposition of a target text into leading whitespace, trimmed
core and trailing whitespace, together with the properties of each part. -/
theorem matchTail_exact (t rest : Str)
    (htb : ∀ c ∈ t, ¬ c = ']') (htd : ∀ c ∈ t, isDotChar c = true) :
    matchTail (t ++ ']' :: ']' :: rest) = some (trimStr t, rest) := by
  set m := t.dropWhile isWsChar with hm
  set w1 := t.takeWhile isWsChar with hw1
  have ht : t = w1 ++ m :=
    (List.takeWhile_append_dropWhile (p := isWsChar) (l := t)).symm
  set g := (m.reverse.dropWhile isWsChar).reverse with hg
  set w2 := (m.reverse.takeWhile isWsChar).reverse with hw2g
  have hmgw : m = g ++ w2 := rev_decomp isWsChar m
  have htrim : trimStr t = g := rfl
  have hw1ws : ∀ c ∈ w1, isWsChar c := fun c hc => List.mem_takeWhile_imp hc
  have hw2ws : ∀ c ∈ w2, isWsChar c := by
    intro c hc
    rw [hw2g, List.mem_reverse] at hc
    exact List.mem_takeWhile_imp hc
  have hmem_g_t : ∀ c ∈ g, c ∈ t := by
    intro c hc
    rw [hg, List.mem_reverse] at hc
    have h2 : c ∈ m.reverse := (List.dropWhile_sublist _).subset hc
    rw [List.mem_reverse] at h2
    exact (List.dropWhile_sublist _).subset h2
  have hgb : ∀ c ∈ g, ¬ c = ']' := fun c hc => htb c (hmem_g_t c hc)
  have hgd : ∀ c ∈ g, isDotChar c = true := fun c hc => htd c (hmem_g_t c hc)
  have hlast : ∀ c, g.getLast? = some c → isWsChar c = false := by
    intro c hc
    rw [hg, List.getLast?_reverse] at hc
    exact head?_dropWhile_false _ _ hc
  have htg : tryG (m ++ ']' :: ']' :: rest) = some (g, rest) := by
    rw [hmgw, List.append_assoc]
    rw [← List.append_assoc]
    exact tryG_exact g w2 rest hgb hgd hlast hw2ws
  rw [matchTail]
  cases hmc : m with
  | nil =>
    -- the whole of t is whitespace; the run covers t and the first
    -- backtracking attempt hits the closing brackets with empty capture
    have htw : t = w1 := by rw [ht, hmc, List.append_nil]
    have htrim2 : trimStr t = [] := by rw [htrim, hg, hmc]; rfl
    have hhead : ∀ c : Char, ((']' :: ']' :: rest : Str)).head? = some c →
        isWsChar c = false := by
      intro c hc
      simp only [List.head?_cons, Option.some.injEq] at hc
      rw [← hc]
      decide
    have htall : ∀ c ∈ t, isWsChar c := by rw [htw]; exact hw1ws
    have hrun : wsRunLen (t ++ ']' :: ']' :: rest) = t.length := by
      rw [wsRunLen, List.takeWhile_append_of_pos htall,
        takeWhile_eq_nil_head _ _ hhead]
      simp
    rw [hrun, htrim2]
    have hclose : tryG (']' :: ']' :: rest) = some ([], rest) := by
      have := tryG_exact [] [] rest (by simp) (by simp) (by simp) (by simp)
      simpa using this
    cases hn : t.length with
    | zero =>
      rw [List.length_eq_zero.mp hn]
      rw [tryW1]
      simpa using hclose
    | succ k =>
      rw [tryW1]
      rw [← hn, List.drop_left]
      rw [hclose]
  | cons c ms =>
    have hcw : isWsChar c = false := by
      apply head?_dropWhile_false isWsChar t
      rw [← hm, hmc]
      rfl
    have hrun : wsRunLen (t ++ ']' :: ']' :: rest) = w1.length := by
      conv_lhs => rw [ht, List.append_assoc]
      apply wsRunLen_append w1 _ hw1ws
      intro x hx
      rw [hmc] at hx
      simp only [List.cons_append, List.head?_cons, Option.some.injEq] at hx
      rw [← hx]
      exact hcw
    rw [hrun, htrim]
    have hdrop : (t ++ ']' :: ']' :: rest).drop w1.length =
        m ++ ']' :: ']' :: rest := by
      conv_lhs => rw [ht, List.append_assoc, List.drop_left]
    cases hn : w1.length with
    | zero =>
      have hw10 : w1 = [] := List.length_eq_zero.mp hn
      have ht2 : t = m := by rw [ht, hw10, List.nil_append]
      rw [tryW1, ht2]
      exact htg
    | succ k =>
      rw [tryW1, ← hn, hdrop, htg]

theorem matchBody_exact (d t rest2 : Str) (hd : ∀ c ∈ d, ¬ c = '>')
    (htb : ∀ c ∈ t, ¬ c = ']') (htd : ∀ c ∈ t, isDotChar c = true) :
    matchBody (d ++ '>' :: '>' :: '[' :: '[' :: (t ++ ']' :: ']' :: rest2)) =
      some (d, trimStr t, rest2) := by
  have hg1 : (d ++ '>' :: '>' :: '[' :: '[' :: (t ++ ']' :: ']' :: rest2)).takeWhile
      (fun c => !(c = '>')) = d := by
    rw [List.takeWhile_append_of_pos (by intro a ha; simpa using hd a ha)]
    rw [takeWhile_eq_nil_head]
    · simp
    · intro c hc
      simp only [List.head?_cons, Option.some.injEq] at hc
      rw [← hc]
      simp
  simp only [matchBody, hg1, List.drop_left]
  have hstrip : stripLit ['>', '>', '[', '[']
      ('>' :: '>' :: '[' :: '[' :: (t ++ ']' :: ']' :: rest2)) =
      some (t ++ ']' :: ']' :: rest2) :=
    stripLit_self_append ['>', '>', '[', '['] _
  rw [hstrip]
  simp only [matchTail_exact t rest2 htb htd, Option.map_some']

theorem scanAux_skip_all (l : Str) : ∀ pos skip, l.length ≤ skip →
    scanAux l pos skip = [] := by
  induction l with
  | nil => intro pos skip h; rfl
  | cons c cs ih =>
    intro pos skip h
    cases skip with
    | zero => simp at h
    | succ m =>
      rw [scanAux]
      exact ih (pos + 1) m (by simpa using h)

/-- The scan of a text consisting of exactly one well-formed pattern
instance: one match at offset 0 whose captures are the descriptor and the
whitespace-trimmed target. -/
theorem scanRels_single (d t : Str) (hd : ∀ c ∈ d, ¬ c = '>')
    (htb : ∀ c ∈ t, ¬ c = ']') (htd : ∀ c ∈ t, isDotChar c = true) :
    scanRels
      ('<' :: '<' :: (d ++ '>' :: '>' :: '[' :: '[' :: (t ++ [']', ']']))) 0 =
      [(0, d, trimStr t)] := by
  rw [scanRels, scanAux]
  have hstrip : stripLit ['<', '<']
      ('<' :: '<' :: (d ++ '>' :: '>' :: '[' :: '[' :: (t ++ [']', ']']))) =
      some (d ++ '>' :: '>' :: '[' :: '[' :: (t ++ [']', ']'])) :=
    stripLit_self_append ['<', '<'] _
  simp only [hstrip]
  have hmb : matchBody (d ++ '>' :: '>' :: '[' :: '[' :: (t ++ [']', ']'])) =
      some (d, trimStr t, []) := by
    have h2 : (t ++ ([']', ']'] : Str)) = t ++ ']' :: ']' :: [] := rfl
    rw [h2]
    exact matchBody_exact d t [] hd htb htd
  simp only [hmb]
  rw [scanAux_skip_all]
  simp
  omega

/-- A document text consisting of exactly one relationship declaration:
`<<` descriptor `>>[[` target `]]`. -/
def mkContent (d t : Str) : Str :=
  '<' :: '<' :: (d ++ '>' :: '>' :: '[' :: '[' :: (t ++ [']', ']']))

theorem scanRels_mkContent (d t : Str) (hd : ∀ c ∈ d, ¬ c = '>')
    (htb : ∀ c ∈ t, ¬ c = ']') (htd : ∀ c ∈ t, isDotChar c = true) :
    scanRels (mkContent d t) 0 = [(0, d, trimStr t)] := by
  rw [mkContent]
  exact scanRels_single d t hd htb htd

theorem splitNl_ne_nil (c : Str) : splitNl c ≠ [] := by
  induction c with
  | nil => simp [splitNl]
  | cons a as ih =>
    rw [splitNl]
    by_cases h : a = '\n'
    · simp [h]
    · rw [if_neg h]
      cases hs : splitNl as with
      | nil => simp
      | cons l ls => simp

theorem trimStr_nil : trimStr [] = [] := rfl

theorem lineLoop_first (l : Str) (ls : List Str) :
    lineLoop (l :: ls) 0 0 0 = 1 := by
  simp [lineLoop]

/-- Parsing a text holding exactly one pattern match: the match is
discarded when the trimmed target is empty or the descriptor is
malformed, and otherwise yields the single expected relationship. -/
theorem parseRelationships_single (d t src : Str) (hd : ∀ c ∈ d, ¬ c = '>')
    (htb : ∀ c ∈ t, ¬ c = ']') (htd : ∀ c ∈ t, isDotChar c = true) :
    parseRelationships (mkContent d t) src =
      if trimStr t = [] then []
      else
        match parseDescriptor d with
        | none => []
        | some (dir, label) =>
          [{ id := genId src 1 0, sourceFile := src, targetFile := trimStr t,
             direction := dir, label := label, line := 1 }] := by
  rw [parseRelationships, scanRels_mkContent d t hd htb htd]
  obtain ⟨l, ls, hls⟩ :=
    List.exists_cons_of_ne_nil (splitNl_ne_nil (mkContent d t))
  rw [hls]
  by_cases hT : trimStr t = []
  · simp [parseLoop, emitOne, trimStr_idem, hT, trimStr_nil]
  · cases hD : parseDescriptor d with
    | none => simp [parseLoop, emitOne, trimStr_idem, hT, hD, lineLoop_first]
    | some p =>
      rcases p with ⟨dir, label⟩
      simp [parseLoop, emitOne, trimStr_idem, hT, hD, lineLoop_first]

/-! ### Claims about the descriptor grammar -/

/-- C3: a descriptor consisting only of dashes (including the empty
descriptor) never classifies, and a match carrying it yields no
relationship. -/
theorem c3_dashes_yield_nothing (d t src : Str)
    (hdash : ∀ c ∈ d, c = '-')
    (htb : ∀ c ∈ t, ¬ c = ']') (htd : ∀ c ∈ t, isDotChar c = true) :
    parseDescriptor d = none ∧ parseRelationships (mkContent d t) src = [] := by
  have hnws : ∀ c ∈ d, isWsChar c = false := by
    intro c hc
    rw [hdash c hc]
    decide
  have htrim : trimStr d = d := trimStr_of_no_ws d hnws
  have hpd : parseDescriptor d = none := by
    rw [parseDescriptor, htrim]
    unfold descrCore
    by_cases h0 : d = []
    · rw [if_pos h0]
    · rw [if_neg h0]
      have hne1 : ¬ d = ['-', '+'] := by
        intro hh
        have := hdash '+' (by rw [hh]; simp)
        exact absurd this (by decide)
      have hne2 : ¬ d = ['+', '-'] := by
        intro hh
        have := hdash '+' (by rw [hh]; simp)
        exact absurd this (by decide)
      have hne3 : ¬ d = ['+', '+'] := by
        intro hh
        have := hdash '+' (by rw [hh]; simp)
        exact absurd this (by decide)
      rw [if_neg hne1, if_neg hne2, if_neg hne3]
      have hall : (d.all (fun c => c = '-' || c = '+') &&
          d.all (fun c => c = '-')) = true := by
        rw [Bool.and_eq_true, List.all_eq_true, List.all_eq_true]
        constructor
        · intro c hc
          simp [hdash c hc]
        · intro c hc
          simp [hdash c hc]
      rw [if_pos hall]
  refine ⟨hpd, ?_⟩
  have hd : ∀ c ∈ d, ¬ c = '>' := by
    intro c hc
    rw [hdash c hc]
    decide
  rw [parseRelationships_single d t src hd htb htd]
  by_cases hT : trimStr t = []
  · rw [if_pos hT]
  · rw [if_neg hT, hpd]

/-- C3 witness at the dash descriptor `--` and target `Target`. -/
theorem c3_dashes_yield_nothing_witness :
    parseDescriptor (str "--") = none ∧
    parseRelationships (mkContent (str "--") (str "Target")) (str "A") = [] :=
  c3_dashes_yield_nothing (str "--") (str "Target") (str "A")
    (by decide) (by decide) (by decide)

theorem descrCore_bidir_label (D : Str) (h1 : D.head? = some '+')
    (h2 : D.getLast? = some '+') (h3 : 2 < D.length) :
    descrCore D =
      (if trimStr (D.drop 1).dropLast = [] then none
       else some (Direction.bidirectional, some (trimStr (D.drop 1).dropLast))) := by
  unfold descrCore
  have hne : ¬ D = [] := by
    intro h0; rw [h0] at h1; exact absurd h1 (by simp)
  have hne1 : ¬ D = ['-', '+'] := by
    intro h0; rw [h0] at h1; exact absurd h1 (by decide)
  have hne2 : ¬ D = ['+', '-'] := by
    intro h0; rw [h0] at h2; exact absurd h2 (by decide)
  have hne3 : ¬ D = ['+', '+'] := by
    intro h0; rw [h0] at h3; exact absurd h3 (by decide)
  have hdash2 : ¬ ((D.all (fun c => c = '-' || c = '+') &&
      D.all (fun c => c = '-')) = true) := by
    intro hc
    rw [Bool.and_eq_true, List.all_eq_true, List.all_eq_true] at hc
    have := hc.2 '+' (List.mem_of_mem_head? h1)
    exact absurd this (by decide)
  rw [if_neg hne, if_neg hne1, if_neg hne2, if_neg hne3, if_neg hdash2,
    if_pos ⟨h1, h2, h3⟩]

theorem descrCore_incoming_label (D : Str) (h1 : D.head? = some '+')
    (h2 : ¬ D.getLast? = some '+') (h4 : ¬ D = ['+', '-']) :
    descrCore D =
      (if trimStr (D.drop 1) = [] then none
       else some (Direction.incoming, some (trimStr (D.drop 1)))) := by
  unfold descrCore
  have hne : ¬ D = [] := by
    intro h0; rw [h0] at h1; exact absurd h1 (by simp)
  have hne1 : ¬ D = ['-', '+'] := by
    intro h0; rw [h0] at h1; exact absurd h1 (by decide)
  have hne3 : ¬ D = ['+', '+'] := by
    intro h0; exact h2 (by rw [h0]; decide)
  have hdash2 : ¬ ((D.all (fun c => c = '-' || c = '+') &&
      D.all (fun c => c = '-')) = true) := by
    intro hc
    rw [Bool.and_eq_true, List.all_eq_true, List.all_eq_true] at hc
    have := hc.2 '+' (List.mem_of_mem_head? h1)
    exact absurd this (by decide)
  have hbid : ¬ (D.head? = some '+' ∧ D.getLast? = some '+' ∧ 2 < D.length) := by
    intro hc
    exact h2 hc.2.1
  rw [if_neg hne, if_neg hne1, if_neg h4, if_neg hne3, if_neg hdash2,
    if_neg hbid, if_pos ⟨h1, h2⟩]

theorem descrCore_outgoing_label (D : Str) (h1 : D.getLast? = some '+')
    (h2 : ¬ D.head? = some '+') (h4 : ¬ D = ['-', '+']) :
    descrCore D =
      (if trimStr D.dropLast = [] then none
       else some (Direction.outgoing, some (trimStr D.dropLast))) := by
  unfold descrCore
  have hne : ¬ D = [] := by
    intro h0; rw [h0] at h1; exact absurd h1 (by simp)
  have hne2 : ¬ D = ['+', '-'] := by
    intro h0; rw [h0] at h1; exact absurd h1 (by decide)
  have hne3 : ¬ D = ['+', '+'] := by
    intro h0; exact h2 (by rw [h0]; decide)
  have hdash2 : ¬ ((D.all (fun c => c = '-' || c = '+') &&
      D.all (fun c => c = '-')) = true) := by
    intro hc
    rw [Bool.and_eq_true, List.all_eq_true, List.all_eq_true] at hc
    have := hc.2 '+' (List.mem_of_mem_getLast? h1)
    exact absurd this (by decide)
  have hbid : ¬ (D.head? = some '+' ∧ D.getLast? = some '+' ∧ 2 < D.length) := by
    intro hc
    exact h2 hc.1
  have hinc : ¬ (D.head? = some '+' ∧ ¬ D.getLast? = some '+') := by
    intro hc
    exact h2 hc.1
  rw [if_neg hne, if_neg h4, if_neg hne2, if_neg hne3, if_neg hdash2,
    if_neg hbid, if_neg hinc, if_pos ⟨h1, h2⟩]

theorem descrCore_undirected (D : Str) (h1 : ¬ D.head? = some '+')
    (h2 : ¬ D.getLast? = some '+') (h3 : D.any isAlnumChar) :
    descrCore D = some (Direction.undirected, some D) := by
  unfold descrCore
  obtain ⟨c0, hc0mem, hc0⟩ := List.any_eq_true.mp h3
  have hne : ¬ D = [] := by
    intro h0; rw [h0] at hc0mem; exact absurd hc0mem (by simp)
  have hne1 : ¬ D = ['-', '+'] := by
    intro h0; exact h2 (by rw [h0]; decide)
  have hne2 : ¬ D = ['+', '-'] := by
    intro h0; exact h1 (by rw [h0]; decide)
  have hne3 : ¬ D = ['+', '+'] := by
    intro h0; exact h1 (by rw [h0]; decide)
  have hdash2 : ¬ ((D.all (fun c => c = '-' || c = '+') &&
      D.all (fun c => c = '-')) = true) := by
    intro hc
    rw [Bool.and_eq_true, List.all_eq_true, List.all_eq_true] at hc
    have heq := hc.2 c0 hc0mem
    simp only [decide_eq_true_eq] at heq
    rw [heq] at hc0
    exact absurd hc0 (by decide)
  have hbid : ¬ (D.head? = some '+' ∧ D.getLast? = some '+' ∧ 2 < D.length) := by
    intro hc
    exact h1 hc.1
  have hinc : ¬ (D.head? = some '+' ∧ ¬ D.getLast? = some '+') := by
    intro hc
    exact h1 hc.1
  have hout : ¬ (D.getLast? = some '+' ∧ ¬ D.head? = some '+') := by
    intro hc
    exact h2 hc.1
  rw [if_neg hne, if_neg hne1, if_neg hne2, if_neg hne3, if_neg hdash2,
    if_neg hbid, if_neg hinc, if_neg hout, if_pos h3]

/-- C2: the descriptor grammar.  On the trimmed descriptor, each of the
seven grammar forms classifies exactly as specified (earlier forms taking
precedence), and a well-formed match with a valid descriptor yields
exactly one relationship carrying the classified direction and label. -/
theorem c2_descriptor_grammar (d t src : Str)
    (hd : ∀ c ∈ d, ¬ c = '>')
    (htb : ∀ c ∈ t, ¬ c = ']') (htd : ∀ c ∈ t, isDotChar c = true)
    (htne : ¬ trimStr t = []) :
    (trimStr d = ['-', '+'] →
      parseDescriptor d = some (Direction.outgoing, none)) ∧
    (trimStr d = ['+', '-'] →
      parseDescriptor d = some (Direction.incoming, none)) ∧
    (trimStr d = ['+', '+'] →
      parseDescriptor d = some (Direction.bidirectional, none)) ∧
    ((trimStr d).head? = some '+' → (trimStr d).getLast? = some '+' →
      2 < (trimStr d).length →
      parseDescriptor d =
        (if trimStr ((trimStr d).drop 1).dropLast = [] then none
         else some (Direction.bidirectional,
           some (trimStr ((trimStr d).drop 1).dropLast)))) ∧
    ((trimStr d).head? = some '+' → ¬ (trimStr d).getLast? = some '+' →
      ¬ trimStr d = ['+', '-'] →
      parseDescriptor d =
        (if trimStr ((trimStr d).drop 1) = [] then none
         else some (Direction.incoming, some (trimStr ((trimStr d).drop 1))))) ∧
    ((trimStr d).getLast? = some '+' → ¬ (trimStr d).head? = some '+' →
      ¬ trimStr d = ['-', '+'] →
      parseDescriptor d =
        (if trimStr (trimStr d).dropLast = [] then none
         else some (Direction.outgoing, some (trimStr (trimStr d).dropLast)))) ∧
    (¬ (trimStr d).head? = some '+' → ¬ (trimStr d).getLast? = some '+' →
      (trimStr d).any isAlnumChar →
      parseDescriptor d = some (Direction.undirected, some (trimStr d))) ∧
    (∀ dir label, parseDescriptor d = some (dir, label) →
      parseRelationships (mkContent d t) src =
        [{ id := genId src 1 0, sourceFile := src, targetFile := trimStr t,
           direction := dir, label := label, line := 1 }]) := by
  refine ⟨?_, ?_, ?_, ?_, ?_, ?_, ?_, ?_⟩
  · intro h; rw [parseDescriptor, h]; decide
  · intro h; rw [parseDescriptor, h]; decide
  · intro h; rw [parseDescriptor, h]; decide
  · intro h1 h2 h3
    rw [parseDescriptor]
    exact descrCore_bidir_label (trimStr d) h1 h2 h3
  · intro h1 h2 h4
    rw [parseDescriptor]
    exact descrCore_incoming_label (trimStr d) h1 h2 h4
  · intro h1 h2 h4
    rw [parseDescriptor]
    exact descrCore_outgoing_label (trimStr d) h1 h2 h4
  · intro h1 h2 h3
    rw [parseDescriptor]
    exact descrCore_undirected (trimStr d) h1 h2 h3
  · intro dir label hD
    rw [parseRelationships_single d t src hd htb htd, if_neg htne, hD]

/-- C2 witness: the labelled bidirectional form `+owns+` on a padded
target emits exactly one relationship with the classified direction and
label, and on the side the exact arrow token `-+` classifies as outgoing. -/
theorem c2_descriptor_grammar_witness :
    (trimStr (str "-+") = ['-', '+'] →
      parseDescriptor (str "-+") = some (Direction.outgoing, none)) ∧
    parseRelationships (mkContent (str "+owns+") (str " Target "))
        (str "A") =
      [{ id := genId (str "A") 1 0, sourceFile := str "A",
         targetFile := str "Target", direction := Direction.bidirectional,
         label := some (str "owns"), line := 1 }] := by
  constructor
  · exact (c2_descriptor_grammar (str "-+") (str "T") (str "A")
      (by decide) (by decide) (by decide) (by decide)).1
  · have h := (c2_descriptor_grammar (str "+owns+") (str " Target ") (str "A")
      (by decide) (by decide) (by decide) (by decide)).2.2.2.2.2.2.2
        Direction.bidirectional (some (str "owns")) (by decide)
    rw [h]
    decide

/-- C1 amended witness: a one-entry index, renamed to a fresh identifier. -/
theorem c1_rename_amended_witness :
    mapGet (renameFile [(str "A", [relAX])] (str "A") (str "B"))
        (stripExtension (str "B")) =
      some ([relAX].map
        (renameMoved (stripExtension (str "A")) (stripExtension (str "B")))) :=
  (c1_rename_amended [(str "A", [relAX])] (str "A") (str "B") [relAX]
    (by decide) (by decide) (by decide)).1

/-! ### Claim about target and source normalization -/

theorem emitOne_fields (src : Str) (lines : List Str) (idx : Nat)
    (m : Nat × Str × Str) (r : Relationship)
    (h : emitOne src lines idx m = some r) :
    r.sourceFile = src ∧ r.targetFile = trimStr m.2.2 ∧
    r.id = genId src (lineLoop lines 0 0 m.1) idx := by
  simp only [emitOne] at h
  split at h
  · exact absurd h (by simp)
  · split at h
    · exact absurd h (by simp)
    · rename_i dir label heq
      cases h
      exact ⟨rfl, rfl, rfl⟩

theorem parseLoop_fields (src : Str) (lines : List Str) :
    ∀ ms idx r, r ∈ parseLoop src lines ms idx →
      r.sourceFile = src ∧ ∃ m ∈ ms, r.targetFile = trimStr m.2.2 := by
  intro ms
  induction ms with
  | nil => intro idx r h; exact absurd h (by simp [parseLoop])
  | cons m ms ih =>
    intro idx r h
    rw [parseLoop] at h
    cases he : emitOne src lines idx m with
    | none =>
      rw [he] at h
      obtain ⟨h1, m2, hm2, h3⟩ := ih (idx + 1) r h
      exact ⟨h1, m2, List.mem_cons_of_mem m hm2, h3⟩
    | some r2 =>
      rw [he] at h
      rcases List.mem_cons.mp h with h2 | h2
      · obtain ⟨h1, h3, _⟩ := emitOne_fields src lines idx m r2 he
        rw [h2]
        exact ⟨h1, m, List.mem_cons_self m ms, h3⟩
      · obtain ⟨h1, m2, hm2, h3⟩ := ih (idx + 1) r h2
        exact ⟨h1, m2, List.mem_cons_of_mem m hm2, h3⟩

/-- C4, amended: every emitted relationship's `sourceFile` is the
identifier the parser was handed verbatim, and its `targetFile` is the
captured target text with surrounding whitespace trimmed and nothing
else (in particular no extension stripping on targets); the `.md`
extension is stripped only from the source identifier, by the index,
before it reaches the parser. -/
theorem c4_target_source_amended (src : Str) :
    (∀ lines ms idx r, r ∈ parseLoop src lines ms idx →
      r.sourceFile = src ∧ ∃ m ∈ ms, r.targetFile = trimStr m.2.2) ∧
    (∀ f : Str, stripExtension (f ++ str ".md") = f) ∧
    (∀ f : Str, ¬ (str ".md" <:+ f) → stripExtension f = f) ∧
    (∀ (m : IndexState) (f c : Str), reindexFile m f c =
      mapSet m (stripExtension f) (parseRelationships c (stripExtension f))) := by
  refine ⟨parseLoop_fields src, ?_, ?_, ?_⟩
  · intro f
    have hsuf : (['.', 'm', 'd'] : Str).isSuffixOf (f ++ str ".md") = true := by
      rw [List.isSuffixOf_iff_suffix]
      exact List.suffix_append f (str ".md")
    rw [stripExtension, if_pos hsuf]
    simp [str]
  · intro f hf
    have hsuf : ¬ (['.', 'm', 'd'] : Str).isSuffixOf f = true := by
      rw [List.isSuffixOf_iff_suffix]
      exact hf
    rw [stripExtension, if_neg hsuf]
  · intro m f c
    rfl

/-- C4 witness: the parseLoop field theorem applied to the concrete
one-match parse of `<<-+>>[[X]]`, and extension stripping on `Note.md`. -/
theorem c4_target_source_amended_witness :
    relAX.sourceFile = str "A" ∧
    stripExtension (str "Note" ++ str ".md") = str "Note" := by
  constructor
  · exact ((c4_target_source_amended (str "A")).1
      (splitNl (mkContent (str "-+") (str "X")))
      (scanRels (mkContent (str "-+") (str "X")) 0) 0 relAX (by decide)).1
  · exact (c4_target_source_amended (str "A")).2.1 (str "Note")

/-- C4 counterexample: a target written `Foo.md` keeps its `.md` suffix in
`targetFile`; the extension is not stripped from targets, contrary to the
claim. -/
theorem c4_target_counterexample :
    (parseRelationships (mkContent (str "-+") (str "Foo.md")) (str "A")).map
      (fun r => r.targetFile) = [str "Foo.md"] ∧
    ¬ (parseRelationships (mkContent (str "-+") (str "Foo.md")) (str "A")).map
      (fun r => r.targetFile) = [stripExtension (trimStr (str "Foo.md"))] := by
  decide

/-! ### Claim about the occurrence counter -/

/-- The match list annotated with absolute match indices, starting at a
given index. -/
def enumFrom (i : Nat) : List (Nat × Str × Str) → List (Nat × (Nat × Str × Str))
  | [] => []
  | m :: ms => (i, m) :: enumFrom (i + 1) ms

theorem parseLoop_eq_filterMap (src : Str) (lines : List Str) :
    ∀ ms idx, parseLoop src lines ms idx =
      (enumFrom idx ms).filterMap (fun p => emitOne src lines p.1 p.2) := by
  intro ms
  induction ms with
  | nil => intro idx; rfl
  | cons m ms ih =>
    intro idx
    rw [parseLoop, enumFrom, List.filterMap_cons]
    cases he : emitOne src lines idx m with
    | none => rw [ih]
    | some r => rw [ih]

/-- C5: a match whose target trims to empty, or whose descriptor fails
classification, emits nothing but still advances the occurrence counter;
consequently the parse result is the index-annotated match list filtered
match by match, each match emitted (or not) at its own absolute index,
independent of what earlier matches did; and an emitted relationship's id
embeds exactly that absolute index. -/
theorem c5_counter_advances (src : Str) (lines : List Str) :
    (∀ (m : Nat × Str × Str) ms idx, trimStr m.2.2 = [] →
      parseLoop src lines (m :: ms) idx = parseLoop src lines ms (idx + 1)) ∧
    (∀ (m : Nat × Str × Str) ms idx, parseDescriptor m.2.1 = none →
      parseLoop src lines (m :: ms) idx = parseLoop src lines ms (idx + 1)) ∧
    (∀ ms idx, parseLoop src lines ms idx =
      (enumFrom idx ms).filterMap (fun p => emitOne src lines p.1 p.2)) ∧
    (∀ idx (m : Nat × Str × Str) r, emitOne src lines idx m = some r →
      r.id = genId src (lineLoop lines 0 0 m.1) idx) := by
  refine ⟨?_, ?_, parseLoop_eq_filterMap src lines, ?_⟩
  · intro m ms idx hT
    rw [parseLoop]
    have he : emitOne src lines idx m = none := by
      simp [emitOne, hT]
    rw [he]
  · intro m ms idx hD
    rw [parseLoop]
    have he : emitOne src lines idx m = none := by
      simp only [emitOne, hD]
      split
      · rfl
      · rfl
    rw [he]
  · intro idx m r h
    exact (emitOne_fields src lines idx m r h).2.2

/-- C5 witness: a discarded empty-target match advances the counter, so
the surviving second match of `<<-+>>[[ ]]<<-+>>[[B]]` carries occurrence
index 1. -/
theorem c5_counter_advances_witness :
    parseLoop (str "A") [str "x"] [(0, str "-+", str " "), (12, str "-+", str "B")] 0 =
      parseLoop (str "A") [str "x"] [(12, str "-+", str "B")] 1 :=
  (c5_counter_advances (str "A") [str "x"]).1
    (0, str "-+", str " ") [(12, str "-+", str "B")] 0 (by decide)

/-! ### Claim about id uniqueness within one parse -/

theorem digitChar_range (k : Nat) (h : k < 10) :
    48 ≤ (digitChar k).toNat ∧ (digitChar k).toNat ≤ 57 := by
  interval_cases k <;> decide

theorem digitChar_toNat (k : Nat) (h : k < 10) : (digitChar k).toNat = 48 + k := by
  interval_cases k <;> decide

theorem natReprAux_digit_range : ∀ fuel n, n < fuel →
    ∀ c ∈ natReprAux fuel n, 48 ≤ c.toNat ∧ c.toNat ≤ 57 := by
  intro fuel
  induction fuel with
  | zero => intro n h; exact absurd h (by omega)
  | succ fuel ih =>
    intro n h c hc
    rw [natReprAux] at hc
    split at hc
    · rename_i h10
      simp only [List.mem_singleton] at hc
      rw [hc]
      exact digitChar_range n h10
    · rename_i h10
      rcases List.mem_append.mp hc with h2 | h2
      · have hdiv : n / 10 < fuel := by
          have := Nat.div_lt_self (show 0 < n by omega) (show 1 < 10 by omega)
          omega
        exact ih (n / 10) hdiv c h2
      · simp only [List.mem_singleton] at h2
        rw [h2]
        exact digitChar_range (n % 10) (Nat.mod_lt _ (by omega))

theorem natRepr_no_colon (n : Nat) : ∀ c ∈ natRepr n, ¬ c = ':' := by
  intro c hc heq
  have h := natReprAux_digit_range (n + 1) n (by omega) c hc
  rw [heq] at h
  exact absurd h (by decide)

/-- Reading a digit string back as a number. -/
def reprVal (s : Str) : Nat := s.foldl (fun acc c => acc * 10 + (c.toNat - 48)) 0

theorem reprVal_natReprAux : ∀ fuel n, n < fuel →
    reprVal (natReprAux fuel n) = n := by
  intro fuel
  induction fuel with
  | zero => intro n h; exact absurd h (by omega)
  | succ fuel ih =>
    intro n h
    rw [natReprAux]
    split
    · rename_i h10
      rw [reprVal]
      simp only [List.foldl_cons, List.foldl_nil]
      rw [digitChar_toNat n h10]
      omega
    · rename_i h10
      have hdiv : n / 10 < fuel := by
        have := Nat.div_lt_self (show 0 < n by omega) (show 1 < 10 by omega)
        omega
      have hA := ih (n / 10) hdiv
      rw [reprVal] at hA ⊢
      rw [List.foldl_append]
      simp only [List.foldl_cons, List.foldl_nil]
      rw [hA, digitChar_toNat (n % 10) (Nat.mod_lt _ (by omega))]
      have := Nat.div_add_mod n 10
      omega

theorem natRepr_inj {a b : Nat} (h : natRepr a = natRepr b) : a = b := by
  have h1 : reprVal (natRepr a) = a := reprVal_natReprAux (a + 1) a (by omega)
  have h2 : reprVal (natRepr b) = b := reprVal_natReprAux (b + 1) b (by omega)
  rw [← h1, ← h2, h]

theorem append_colon_inj : ∀ (a a2 b b2 : Str), (∀ c ∈ a, ¬ c = ':') →
    (∀ c ∈ a2, ¬ c = ':') → a ++ ':' :: b = a2 ++ ':' :: b2 →
    a = a2 ∧ b = b2 := by
  intro a
  induction a with
  | nil =>
    intro a2 b b2 h1 h2 heq
    cases a2 with
    | nil => simpa using heq
    | cons c2 as2 =>
      simp only [List.nil_append, List.cons_append, List.cons.injEq] at heq
      exact absurd heq.1.symm (h2 c2 (by simp))
  | cons c as ih =>
    intro a2 b b2 h1 h2 heq
    cases a2 with
    | nil =>
      simp only [List.cons_append, List.nil_append, List.cons.injEq] at heq
      exact absurd heq.1 (h1 c (by simp))
    | cons c2 as2 =>
      simp only [List.cons_append, List.cons.injEq] at heq
      obtain ⟨h3, h4⟩ := ih as2 b b2
        (fun x hx => h1 x (List.mem_cons_of_mem c hx))
        (fun x hx => h2 x (List.mem_cons_of_mem c2 hx)) heq.2
      exact ⟨by rw [heq.1, h3], h4⟩

theorem genId_inj_idx (src : Str) {l1 i1 l2 i2 : Nat}
    (h : genId src l1 i1 = genId src l2 i2) : i1 = i2 := by
  rw [genId, genId] at h
  have h2 := List.append_cancel_left h
  simp only [List.cons.injEq, true_and] at h2
  obtain ⟨h3, h4⟩ := append_colon_inj (natRepr l1) (natRepr l2) (natRepr i1)
    (natRepr i2) (natRepr_no_colon l1) (natRepr_no_colon l2) h2
  exact natRepr_inj h4

theorem mem_enumFrom {q : Nat × (Nat × Str × Str)} :
    ∀ (ms : List (Nat × Str × Str)) (i : Nat), q ∈ enumFrom i ms → i ≤ q.1 := by
  intro ms
  induction ms with
  | nil => intro i h; exact absurd h (by simp [enumFrom])
  | cons m ms ih =>
    intro i h
    rw [enumFrom] at h
    rcases List.mem_cons.mp h with h2 | h2
    · rw [h2]
    · have := ih (i + 1) h2
      omega

theorem enumFrom_pairwise : ∀ (ms : List (Nat × Str × Str)) (i : Nat),
    (enumFrom i ms).Pairwise (fun p q => p.1 < q.1) := by
  intro ms
  induction ms with
  | nil => intro i; simp [enumFrom]
  | cons m ms ih =>
    intro i
    rw [enumFrom]
    refine List.Pairwise.cons ?_ (ih (i + 1))
    intro q hq
    have := mem_enumFrom ms (i + 1) hq
    show i < q.1
    omega

theorem pairwise_filterMap {α β : Type} (f : α → Option β)
    (R : α → α → Prop) (S : β → β → Prop)
    (hf : ∀ a b, R a b → ∀ c, f a = some c → ∀ e, f b = some e → S c e) :
    ∀ l : List α, l.Pairwise R → (l.filterMap f).Pairwise S := by
  intro l
  induction l with
  | nil => intro h; simp
  | cons a l ih =>
    intro h
    rw [List.pairwise_cons] at h
    rw [List.filterMap_cons]
    cases hfa : f a with
    | none => exact ih h.2
    | some c =>
      refine List.Pairwise.cons ?_ (ih h.2)
      intro e he
      obtain ⟨b, hb, hfb⟩ := List.mem_filterMap.mp he
      exact hf a b (h.1 b hb) c hfa e hfb

/-- C10: the ids of the relationships returned by a single parse are
pairwise distinct — the occurrence index embedded in each id strictly
increases across matches, so even relationships on the same line get
distinct ids. -/
theorem c10_parse_ids_distinct (content src : Str) :
    (parseRelationships content src).Pairwise (fun a b => ¬ a.id = b.id) := by
  rw [parseRelationships, parseLoop_eq_filterMap]
  apply pairwise_filterMap _ (fun p q => p.1 < q.1) _ ?_ _
    (enumFrom_pairwise _ 0)
  intro p q hpq c hc e he
  have hc2 := (emitOne_fields _ _ _ _ _ hc).2.2
  have he2 := (emitOne_fields _ _ _ _ _ he).2.2
  intro heq
  rw [hc2, he2] at heq
  have := genId_inj_idx src heq
  omega

/-! ### Claim about parallel-edge curve offsets -/

/-- Number of relationships in a list sharing a given endpoint-pair key. -/
def keyCountIn (rels : List Relationship) (k : Str) : Nat :=
  (rels.filter (fun r => pairKey r = k)).length

theorem cntGet_cntSet (m : List (Str × Nat)) (k k2 : Str) (v : Nat) :
    cntGet (cntSet m k v) k2 = if k2 = k then v else cntGet m k2 := by
  induction m with
  | nil =>
    simp only [cntSet, cntGet]
    by_cases h : k2 = k
    · rw [if_pos h.symm, if_pos h]
    · rw [if_neg (fun hc => h hc.symm), if_neg h]
  | cons e es ih =>
    by_cases h1 : e.1 = k
    · simp only [cntSet, if_pos h1, cntGet]
      by_cases h2 : k2 = k
      · rw [if_pos h2.symm, if_pos h2]
      · rw [if_neg (fun hc => h2 hc.symm), if_neg h2]
        have h3 : ¬ e.1 = k2 := by rw [h1]; exact fun hc => h2 hc.symm
        rw [if_neg h3]
    · simp only [cntSet, if_neg h1, cntGet]
      by_cases h2 : e.1 = k2
      · rw [if_pos h2, if_neg (fun hc => h1 (h2.trans hc)), if_pos h2]
      · rw [if_neg h2, ih]
        by_cases h3 : k2 = k
        · rw [if_pos h3, if_pos h3]
        · rw [if_neg h3, if_neg h3, if_neg h2]

theorem keyCountIn_cons (r : Relationship) (rs : List Relationship) (k : Str) :
    keyCountIn (r :: rs) k =
      (if pairKey r = k then 1 else 0) + keyCountIn rs k := by
  by_cases h : pairKey r = k
  · simp [keyCountIn, List.filter_cons, h, Nat.add_comm]
  · simp [keyCountIn, List.filter_cons, h]

theorem buildLinksGo_length : ∀ (rels : List Relationship) (m : List (Str × Nat)),
    (buildLinksGo rels m).length = rels.length := by
  intro rels
  induction rels with
  | nil => intro m; rfl
  | cons r rs ih => intro m; simp [buildLinksGo, ih]

theorem buildLinksGo_get :
    ∀ (rels : List Relationship) (m : List (Str × Nat)) (i : Nat)
      (hi : i < rels.length) (hlen : i < (buildLinksGo rels m).length),
      ((buildLinksGo rels m).get ⟨i, hlen⟩).relationship = rels.get ⟨i, hi⟩ ∧
      ((buildLinksGo rels m).get ⟨i, hlen⟩).curveOffset =
        (cntGet m (pairKey (rels.get ⟨i, hi⟩)) +
          keyCountIn (rels.take i) (pairKey (rels.get ⟨i, hi⟩))) * 30 := by
  intro rels
  induction rels with
  | nil => intro m i hi; exact absurd hi (by simp)
  | cons r rs ih =>
    intro m i hi hlen
    cases i with
    | zero =>
      constructor
      · rfl
      · simp [buildLinksGo, keyCountIn]
    | succ j =>
      have hj : j < rs.length := by simpa using hi
      have hlen2 : j <
          (buildLinksGo rs
            (cntSet m (pairKey r) (cntGet m (pairKey r) + 1))).length := by
        rw [buildLinksGo_length]
        exact hj
      obtain ⟨ha, hb⟩ :=
        ih (cntSet m (pairKey r) (cntGet m (pairKey r) + 1)) j hj hlen2
      have hget : (r :: rs).get ⟨j + 1, hi⟩ = rs.get ⟨j, hj⟩ := rfl
      constructor
      · rw [hget]
        exact ha
      · have hb2 : ((buildLinksGo (r :: rs) m).get ⟨j + 1, hlen⟩).curveOffset =
            (cntGet (cntSet m (pairKey r) (cntGet m (pairKey r) + 1))
              (pairKey (rs.get ⟨j, hj⟩)) +
              keyCountIn (rs.take j) (pairKey (rs.get ⟨j, hj⟩))) * 30 := hb
        rw [hget, hb2, List.take_succ_cons, keyCountIn_cons, cntGet_cntSet]
        by_cases hk : pairKey (rs.get ⟨j, hj⟩) = pairKey r
        · rw [if_pos hk, if_pos hk.symm, hk]
          omega
        · rw [if_neg hk, if_neg (fun hc => hk hc.symm)]
          omega

/-- C8, amended: the k-th relationship (0-based) sharing a given
endpoint-pair *key* — both endpoints sorted lexicographically and joined
with `--`, which coincides with the unordered endpoint pair whenever no
identifier contains `--` — receives `curveOffset = k * 30`, deterministic
in the relationship order alone; the link list carries the retained
relationships in order, one link each. -/
theorem c8_curve_offset_amended (rels : List Relationship) (i : Nat)
    (hi : i < rels.length) :
    (buildLinks rels).length = rels.length ∧
    (∀ hlen : i < (buildLinks rels).length,
      ((buildLinks rels).get ⟨i, hlen⟩).relationship = rels.get ⟨i, hi⟩ ∧
      ((buildLinks rels).get ⟨i, hlen⟩).curveOffset =
        keyCountIn (rels.take i) (pairKey (rels.get ⟨i, hi⟩)) * 30) := by
  constructor
  · exact buildLinksGo_length rels []
  · intro hlen
    obtain ⟨ha, hb⟩ := buildLinksGo_get rels [] i hi hlen
    refine ⟨ha, ?_⟩
    have hb2 : ((buildLinks rels).get ⟨i, hlen⟩).curveOffset =
        (cntGet [] (pairKey (rels.get ⟨i, hi⟩)) +
          keyCountIn (rels.take i) (pairKey (rels.get ⟨i, hi⟩))) * 30 := hb
    rw [hb2, show cntGet [] (pairKey (rels.get ⟨i, hi⟩)) = 0 from rfl]
    omega

/-- A second relationship declared by A toward X, on line 2. -/
def relAX2 : Relationship :=
  ⟨str "A:2:1", str "A", str "X", Direction.outgoing, none, 2⟩

/-- C8 witness: two relationships between the same endpoints get offsets
0 and 30. -/
theorem c8_curve_offset_amended_witness :
    ((buildLinks [relAX, relAX2]).get ⟨1, by decide⟩).curveOffset = 30 := by
  have h := ((c8_curve_offset_amended [relAX, relAX2] 1 (by decide)).2
    (by decide)).2
  rw [h]
  decide

/-- C8 counterexample: the bundling key collides for identifiers
containing `--`.  The pair {A, B--C} and the pair {A--B, C} share the key
`A--B--C`, so the first relationship of the second pair receives offset
30 instead of the 0 the unordered-pair claim demands. -/
theorem c8_curve_offset_counterexample :
    (buildLinks
      [⟨str "A:1:0", str "A", str "B--C", Direction.outgoing, none, 1⟩,
       ⟨str "D:1:0", str "A--B", str "C", Direction.outgoing, none, 1⟩]).map
      (fun l => l.curveOffset) = [0, 30] ∧
    ¬ ((str "A--B" = str "A" ∧ str "C" = str "B--C") ∨
       (str "A--B" = str "B--C" ∧ str "C" = str "A")) := by
  decide

/-! ### Claim about layout continuity across rebuilds -/

theorem mkNodes_spec (prev : List GraphNode) (existingFiles : List Str)
    (w hgt : ℚ) (rand : Nat → ℚ)
    (hrand : ∀ j, 0 ≤ rand j ∧ rand j ≤ 1) :
    ∀ (ids : List Str) (k : Nat) (n : GraphNode),
      n ∈ mkNodes prev existingFiles w hgt rand ids k →
      (∀ p, lookupNode prev n.id = some p →
        n.x = p.x ∧ n.y = p.y ∧ n.vx = p.vx ∧ n.vy = p.vy) ∧
      (lookupNode prev n.id = none →
        |n.x - w / 2| ≤ 50 ∧ |n.y - hgt / 2| ≤ 50 ∧
        n.vx = none ∧ n.vy = none) := by
  intro ids
  induction ids with
  | nil => intro k n h; exact absurd h (by simp [mkNodes])
  | cons i is ih =>
    intro k n h
    rw [mkNodes] at h
    cases hl : lookupNode prev i with
    | some p =>
      rw [hl] at h
      rcases List.mem_cons.mp h with h2 | h2
      · constructor
        · intro p2 hp2
          rw [h2] at hp2 ⊢
          simp only at hp2
          rw [hl] at hp2
          cases hp2
          exact ⟨rfl, rfl, rfl, rfl⟩
        · intro hp2
          rw [h2] at hp2
          simp only at hp2
          rw [hl] at hp2
          exact absurd hp2 (by simp)
      · exact ih k n h2
    | none =>
      rw [hl] at h
      rcases List.mem_cons.mp h with h2 | h2
      · constructor
        · intro p2 hp2
          rw [h2] at hp2
          simp only at hp2
          rw [hl] at hp2
          exact absurd hp2 (by simp)
        · intro _
          rw [h2]
          refine ⟨?_, ?_, rfl, rfl⟩
          · have h3 := hrand k
            have h4 : (w / 2 + (rand k - 1 / 2) * 100) - w / 2 =
                (rand k - 1 / 2) * 100 := by ring
            simp only
            rw [h4, abs_le]
            constructor
            · nlinarith [h3.1, h3.2]
            · nlinarith [h3.1, h3.2]
          · have h3 := hrand (k + 1)
            have h4 : (hgt / 2 + (rand (k + 1) - 1 / 2) * 100) - hgt / 2 =
                (rand (k + 1) - 1 / 2) * 100 := by ring
            simp only
            rw [h4, abs_le]
            constructor
            · nlinarith [h3.1, h3.2]
            · nlinarith [h3.1, h3.2]
      · exact ih (k + 2) n h2

/-- C9: on every rebuild via `update`, a node whose identifier existed in
the previous node list starts from its previous position and velocity;
only nodes with new identifiers are seeded, at a randomized position
within 50 units of the viewport center and with no initial velocity. -/
theorem c9_layout_continuity (labelFilter : Str) (existingFiles : List Str)
    (prevNodes : List GraphNode) (w hgt : ℚ) (rand : Nat → ℚ)
    (nodeNames : List Str) (rels : List Relationship)
    (hrand : ∀ j, 0 ≤ rand j ∧ rand j ≤ 1) :
    ∀ n ∈ (rendererUpdate labelFilter existingFiles prevNodes w hgt rand
        nodeNames rels).1,
      (∀ p, lookupNode prevNodes n.id = some p →
        n.x = p.x ∧ n.y = p.y ∧ n.vx = p.vx ∧ n.vy = p.vy) ∧
      (lookupNode prevNodes n.id = none →
        |n.x - w / 2| ≤ 50 ∧ |n.y - hgt / 2| ≤ 50 ∧
        n.vx = none ∧ n.vy = none) := by
  intro n h
  exact mkNodes_spec prevNodes existingFiles w hgt rand hrand _ 0 n h

/-- C9 witness: rebuilding with a kept node `A` at (3, 4) with velocity
(5, 6) and a new node `B`, under the constant random stream 1/2. -/
theorem c9_layout_continuity_witness :
    (⟨str "A", false, 3, 4, some 5, some 6⟩ : GraphNode).x = 3 ∧
    |(400 : ℚ) - 800 / 2| ≤ 50 := by
  constructor
  · have h := c9_layout_continuity [] (str "A" :: [])
      [⟨str "A", false, 3, 4, some 5, some 6⟩] 800 600 (fun _ => 1 / 2)
      [str "A", str "B"] [] (by intro j; constructor <;> norm_num)
      ⟨str "A", false, 3, 4, some 5, some 6⟩ (by decide)
    have h2 := (h.1 ⟨str "A", false, 3, 4, some 5, some 6⟩ (by decide)).1
    rw [h2]
  · norm_num

end Graphsidian
